import Mathlib

/-!
Verification of the octree core of `rust-voxel-data`.

The definitions below are a shallow embedding of `src/bounds.rs`,
`src/brush.rs`, `src/tree/mod.rs` and `src/tree/traversal.rs`.
Machine integers (`i32` coordinates, `i16` scale exponents, `u8` tree size)
are modelled as unbounded `Int`/`Nat`; the two shift expressions whose `i32`
overflow the specification singles out are additionally modelled with exact
32-bit wrapping semantics (`wrap32` and friends) further down.
Rust `>>` on a non-negative `i32` is floor division, which is `Int`'s `/`
(Euclidean division) for positive divisors; `<<` is multiplication by a
power of two.  `while` loops and the brush recursion are written with an
explicit fuel argument that provably exceeds the number of iterations the
source loop performs (sufficiency lemmas below), keeping every definition
executable by the kernel.
-/

/-- Voxel bounds (`src/bounds.rs`, `bounds::T`): an addressed cube.
`x`, `y`, `z` are `i32` in the source and `lg_size` is `i16`; both are
modelled as unbounded integers. -/
structure bounds.T where
  x : Int
  y : Int
  z : Int
  lg_size : Int
deriving DecidableEq, Repr

/-- Octant selection, one `Bool` per axis in `x, y, z` order; `true` selects
the high half (index `1` of the source's `as_array` view). -/
abbrev Octant : Type := Bool × Bool × Bool

/-- Diagonally opposite octant (negate the choice on every axis). -/
def Octant.opp (o : Octant) : Octant := (!o.1, !o.2.1, !o.2.2)

/-- Two's complement bitwise AND on unbounded integers, the semantics of
Rust's `&` on signed integers.  It agrees with `Int.land` case by case
(lemma `landK_eq_land` below); the mixed-sign cases are phrased with
`m ^^^ (m &&& n)` (equal to `Nat.ldiff m n`) so that the kernel can
evaluate concrete traversals. -/
def landK : Int → Int → Int
  | .ofNat m, .ofNat n => .ofNat (m &&& n)
  | .ofNat m, .negSucc n => .ofNat (m ^^^ (m &&& n))
  | .negSucc m, .ofNat n => .ofNat (n ^^^ (n &&& m))
  | .negSucc m, .negSucc n => .negSucc (m ||| n)

namespace tree

/-- The recursive part of the octree (`src/tree/mod.rs`, `enum Inner`):
either `empty` (unallocated) or an allocated node carrying an optional
payload plus eight children, listed in the source's field order
`lll llh lhl lhh hll hlh hhl hhh` (letters are x,y,z; `l` low, `h` high). -/
inductive Inner (V : Type) : Type where
  | empty : Inner V
  | branches (data : Option V)
      (lll llh lhl lhh hll hlh hhl hhh : Inner V) : Inner V
deriving DecidableEq, Repr

/-- Branch storage (`src/tree/mod.rs`, `struct Branches`): an optional
payload plus eight child slots. -/
structure Branches (V : Type) where
  data : Option V
  lll : Inner V
  llh : Inner V
  lhl : Inner V
  lhh : Inner V
  hll : Inner V
  hlh : Inner V
  hhl : Inner V
  hhh : Inner V
deriving DecidableEq, Repr

/-- The voxel octree (`src/tree/mod.rs`, `struct T`): the tree extends
`2^lg_size` in each direction; the top level is always branch storage. -/
structure T (V : Type) where
  lg_size : Nat
  contents : Branches V
deriving DecidableEq, Repr

variable {V : Type}

/-- Branches::empty. -/
def Branches.empty : Branches V :=
  ⟨none, .empty, .empty, .empty, .empty, .empty, .empty, .empty, .empty⟩

/-- Inner::leaf: branch storage holding `voxel`, with all children empty. -/
def Inner.leaf (voxel : Option V) : Inner V :=
  .branches voxel .empty .empty .empty .empty .empty .empty .empty .empty

/-- Child slot of branch storage selected by octant, mirroring the
source's `as_array` view indexed `[x][y][z]` with high = index 1. -/
def Branches.child (br : Branches V) (o : Octant) : Inner V :=
  match o with
  | (false, false, false) => br.lll
  | (false, false, true)  => br.llh
  | (false, true,  false) => br.lhl
  | (false, true,  true)  => br.lhh
  | (true,  false, false) => br.hll
  | (true,  false, true)  => br.hlh
  | (true,  true,  false) => br.hhl
  | (true,  true,  true)  => br.hhh

/-- View an allocated node's fields as branch storage; `empty` (which the
source never views this way) maps to empty branch storage. -/
def Inner.toB : Inner V → Branches V
  | .empty => Branches.empty
  | .branches d a b c d' e f g h => ⟨d, a, b, c, d', e, f, g, h⟩

/-- Pack branch storage back into a node. -/
def Branches.toInner (br : Branches V) : Inner V :=
  .branches br.data br.lll br.llh br.lhl br.lhh br.hll br.hlh br.hhl br.hhh

/-- Child of a node selected by octant (`empty` has no children). -/
def Inner.childO (n : Inner V) (o : Octant) : Inner V :=
  match n with
  | .empty => .empty
  | .branches _ a b c d e f g h => Branches.child ⟨none, a, b, c, d, e, f, g, h⟩ o

/-- Replace one child slot of an allocated node. -/
def Inner.setChildO (n : Inner V) (o : Octant) (v : Inner V) : Inner V :=
  match n with
  | .empty => .empty
  | .branches d a b c d' e f g h =>
    match o with
    | (false, false, false) => .branches d v b c d' e f g h
    | (false, false, true)  => .branches d a v c d' e f g h
    | (false, true,  false) => .branches d a b v d' e f g h
    | (false, true,  true)  => .branches d a b c v e f g h
    | (true,  false, false) => .branches d a b c d' v f g h
    | (true,  false, true)  => .branches d a b c d' e v g h
    | (true,  true,  false) => .branches d a b c d' e f v h
    | (true,  true,  true)  => .branches d a b c d' e f g v

/-- Inner::force_branches: an `empty` node is materialized as `leaf None`
(allocated, no payload, all-empty children); allocated nodes are unchanged. -/
def Inner.forceB (n : Inner V) : Inner V :=
  match n with
  | .empty => Inner.leaf none
  | n => n

/-- Inner::voxel: the payload of an allocated node. -/
def Inner.voxel (n : Inner V) : Option V :=
  match n with
  | .empty => none
  | .branches d _ _ _ _ _ _ _ _ => d

/-- Predicate for the spec's `Allocated` state. -/
def Inner.isAllocated (n : Inner V) : Bool :=
  match n with
  | .empty => false
  | .branches _ _ _ _ _ _ _ _ _ => true

/-- No node of this subtree carries a payload.  Growth and path
materialization only ever create such payload-free nodes, which is what
makes a single written payload the unique addressable one. -/
def Inner.allNone : Inner V → Bool
  | .empty => true
  | .branches d a b c d' e f g h =>
    d.isNone && a.allNone && b.allNone && c.allNone && d'.allNone
      && e.allNone && f.allNone && g.allNone && h.allNone

/-- Half-width of a tree of scale `S` rescaled to resolution `L`
(`src/tree/mod.rs`, the `high` computation in `contains_bounds`):
`(1 << S) >> L` when `0 ≤ L`, else `(1 << S) << (-L)`. -/
def highAt (S : Nat) (L : Int) : Int :=
  if 0 ≤ L then (2 ^ S : Int) / 2 ^ L.toNat else (2 ^ S : Int) * 2 ^ (-L).toNat

/-- Containment test at scale `S` (`T::contains_bounds` depends on the tree
only through `lg_size`): every coordinate lies in `[-high, high)`. -/
def containsAt (S : Nat) (b : bounds.T) : Bool :=
  let high := highAt S b.lg_size
  decide (b.x < high) && decide (b.y < high) && decide (b.z < high) &&
    (decide (-high ≤ b.x) && decide (-high ≤ b.y) && decide (-high ≤ b.z))

/-- T::contains_bounds. -/
def T.contains_bounds (t : T V) (b : bounds.T) : Bool :=
  containsAt t.lg_size b

/-- One doubling step of `T::grow_to_hold`: the old child of octant `o`
is re-homed as the single grandchild `Octant.opp o` of the new octant `o`. -/
def homed (n : Inner V) (slot : Octant) : Inner V :=
  (Inner.leaf none).setChildO slot n

/-- The body of the `while` loop in `T::grow_to_hold`: double the bounds in
every direction, re-homing each old top-level child into the diagonally
opposite grandchild slot of the doubled root. -/
def T.grow_step (t : T V) : T V :=
  { lg_size := t.lg_size + 1
    contents :=
      { data := none
        lll := homed t.contents.lll (true,  true,  true)
        llh := homed t.contents.llh (true,  true,  false)
        lhl := homed t.contents.lhl (true,  false, true)
        lhh := homed t.contents.lhh (true,  false, false)
        hll := homed t.contents.hll (false, true,  true)
        hlh := homed t.contents.hlh (false, true,  false)
        hhl := homed t.contents.hhl (false, false, true)
        hhh := homed t.contents.hhh (false, false, false) } }

/-- Fuelled form of the `while !contains_bounds` loop of `T::grow_to_hold`;
`grow_fuel` below provably suffices, so the fuelled loop equals the source's
unbounded loop. -/
def growLoop (b : bounds.T) : Nat → T V → T V
  | 0, t => t
  | fuel + 1, t => if t.contains_bounds b then t else growLoop b fuel t.grow_step

/-- A scale at which `b` is certainly contained (used only to size the fuel). -/
def growBound (b : bounds.T) : Nat :=
  max b.x.natAbs (max b.y.natAbs b.z.natAbs) + b.lg_size.toNat

/-- T::grow_to_hold. -/
def T.grow_to_hold (t : T V) (b : bounds.T) : T V :=
  growLoop b (growBound b + 1) t

/-- tree::new. -/
def new : T V :=
  { lg_size := 0, contents := Branches.empty }

end tree

namespace traversal

open tree

/-- Mask initialisation (`src/tree/traversal.rs`, `to_voxel_mask`):
`((1 << S) >> 1)` rescaled by the target's `lg_size`. -/
def to_voxel_mask (S : Nat) (b : bounds.T) : Int :=
  let m : Int := (2 ^ S : Int) / 2
  if 0 ≤ b.lg_size then m / 2 ^ b.lg_size.toNat else m * 2 ^ (-b.lg_size).toNat

/-- First-step octant selection: by the sign of each coordinate
(`(x >= 0) as usize`). -/
def signOct (b : bounds.T) : Octant :=
  (decide (0 ≤ b.x), decide (0 ≤ b.y), decide (0 ≤ b.z))

/-- Non-first-step per-axis selection: `(x & mask) != 0`. -/
def bsel (x : Int) (m : Nat) : Bool :=
  decide (landK x (Int.ofNat m) ≠ 0)

/-- Non-first-step octant selection at the current mask. -/
def octAt (m : Nat) (b : bounds.T) : Octant :=
  (bsel b.x m, bsel b.y m, bsel b.z m)

/-- Fuelled form of the selections made while `mask != 0`: select at the
current mask, then shift the mask right by one.  The mask is non-negative in
the unbounded model, so `>> 1` is `Nat` halving. -/
def maskPathF (b : bounds.T) : Nat → Nat → List Octant
  | 0, _ => []
  | fuel + 1, m => if m = 0 then [] else octAt m b :: maskPathF b fuel (m / 2)

/-- Selections made after the first step; `m` itself is enough fuel since the
mask at least halves every step. -/
def maskPath (m : Nat) (b : bounds.T) : List Octant :=
  maskPathF b m m

/-- The complete octant path walked by `ToVoxel`/`ToVoxelMut` for target `b`
in a tree of scale `S`: the sign-based first step, then mask-based steps
until the mask reaches zero. -/
def pathOf (S : Nat) (b : bounds.T) : List Octant :=
  signOct b :: maskPath (to_voxel_mask S b).toNat b

end traversal

namespace tree

open traversal

variable {V : Type}

/-- Read-only descent (`ToVoxel::last`): follow the path; stepping from an
`empty` node aborts with `none`; the node reached at the end of the path is
returned as-is (it may be `empty`). -/
def Inner.walk : Inner V → List Octant → Option (Inner V)
  | n, [] => some n
  | .empty, _ :: _ => none
  | n, o :: p => (n.childO o).walk p

/-- Create-on-demand descent of `T::get_mut_or_create` combined with the
caller's assignment `*node = v`: every node stepped through is forced via
`force_branches`, and the slot at the end of the path is replaced by `v`. -/
def Inner.setPath : Inner V → List Octant → Inner V → Inner V
  | _, [], v => v
  | n, o :: p, v =>
    let m := n.forceB
    m.setChildO o ((m.childO o).setPath p v)

/-- Create-on-demand descent of `T::get_mut_or_create` alone: returns the
tree after materialization together with the node the source returns a
mutable reference to (the end-of-path slot, not itself forced). -/
def Inner.forceWalk : Inner V → List Octant → Inner V × Inner V
  | n, [] => (n, n)
  | n, o :: p =>
    let m := n.forceB
    let r := (m.childO o).forceWalk p
    (m.setChildO o r.1, r.2)

/-- T::get: `none` outside the tree bounds, otherwise the payload of the
node at the target's exact resolution. -/
def T.get (t : T V) (b : bounds.T) : Option V :=
  if t.contains_bounds b then
    ((t.contents.toInner).walk (pathOf t.lg_size b)).bind Inner.voxel
  else none

/-- The compound operation `*t.get_mut_or_create(b) = n`: grow to hold `b`,
then walk the traversal path materializing intermediate nodes, and replace
the end-of-path slot by `n`. -/
def T.write (t : T V) (b : bounds.T) (n : Inner V) : T V :=
  let g := t.grow_to_hold b
  { g with contents := ((g.contents.toInner).setPath (pathOf g.lg_size b) n).toB }

/-- The tree state after `t.get_mut_or_create(b)` itself (before the caller
writes anything): grow, then force intermediate path nodes. -/
def T.gmoc (t : T V) (b : bounds.T) : T V :=
  let g := t.grow_to_hold b
  { g with contents := ((g.contents.toInner).forceWalk (pathOf g.lg_size b)).1.toB }

/-- The node `t.get_mut_or_create(b)` returns a mutable reference to. -/
def T.gmocNode (t : T V) (b : bounds.T) : Inner V :=
  let g := t.grow_to_hold b
  ((g.contents.toInner).forceWalk (pathOf g.lg_size b)).2

end tree

namespace brush

/-- An integer axis-aligned box (`cgmath::Aabb3<i32>`, used as `brush::Bounds`). -/
structure Bounds where
  minx : Int
  miny : Int
  minz : Int
  maxx : Int
  maxy : Int
  maxz : Int
deriving DecidableEq, Repr

/-- A voxel brush (`src/brush.rs`, `brush::T`): the target region and the
finest resolution it will touch.  The `mosaic` field only ever reaches the
voxel's own brush operation and the generate callback, which the octree
treats as opaque; it is absorbed into the `vbrush`/`generate` callbacks of
the brush algorithm below. -/
structure T where
  bounds : Bounds
  min_lg_size : Int
deriving DecidableEq, Repr

end brush

namespace tree

variable {V : Type}

/-- Overlap test between a voxel's bounds and a brush's box
(`src/tree/mod.rs`, `brush_overlaps`): one operand is rescaled into the
other's resolution by shifting, the direction depending on the sign of the
voxel's `lg_size`. -/
def brush_overlaps (voxel : bounds.T) (br : brush.Bounds) : Bool :=
  if 0 ≤ voxel.lg_size then
    let s : Int := 2 ^ voxel.lg_size.toNat
    decide (voxel.x * s < br.maxx) && decide (voxel.y * s < br.maxy) &&
    decide (voxel.z * s < br.maxz) &&
      (decide (br.minx < voxel.x * s + s) && decide (br.miny < voxel.y * s + s) &&
       decide (br.minz < voxel.z * s + s))
  else
    let s : Int := 2 ^ (-voxel.lg_size).toNat
    decide (voxel.x < br.maxx * s) && decide (voxel.y < br.maxy * s) &&
    decide (voxel.z < br.maxz * s) &&
      (decide (br.minx * s ≤ voxel.x) && decide (br.miny * s ≤ voxel.y) &&
       decide (br.minz * s ≤ voxel.z) )

/-- Payload update a brush performs at one node (the `branches.data` match
inside `Inner::brush`): an absent payload is generated (the brush is applied
to it and `on_voxel_update` fires only if generation succeeds); a present
payload is brushed in place and `on_voxel_update` fires.  Returns the new
payload and the emitted `on_voxel_update` events. -/
def brushData (data : Option V) (b : bounds.T)
    (generate : bounds.T → Option V) (vbrush : V → bounds.T → V) :
    Option V × List (V × bounds.T) :=
  match data with
  | none =>
    match generate b with
    | none => (none, [])
    | some v => let v' := vbrush v b; (some v', [(v', b)])
  | some v => let v' := vbrush v b; (some v', [(v', b)])

/-- Recursive brush application (`Inner::brush`), fuelled: no-overlap and
past-`min_lg_size` nodes are left untouched; otherwise the node's payload is
updated, then all eight children are brushed with the halved bounds, in the
source's `lll llh lhl lhh hll hlh hhl hhh` order.  Returns the new node and
the `on_voxel_update` events in firing order.  The fuel used by `T.brush`
provably exceeds the recursion depth (`min_lg_size` bounds it). -/
def Inner.brushF (br : brush.T) (generate : bounds.T → Option V)
    (vbrush : V → bounds.T → V) :
    Nat → Inner V → bounds.T → Inner V × List (V × bounds.T)
  | 0, n, _ => (n, [])
  | fuel + 1, n, b =>
    if !brush_overlaps b br.bounds then (n, [])
    else if b.lg_size < br.min_lg_size then (n, [])
    else
      let onB : Branches V → Branches V × List (V × bounds.T) := fun bs =>
        let p := brushData bs.data b generate vbrush
        let c : bounds.T := ⟨b.x * 2, b.y * 2, b.z * 2, b.lg_size - 1⟩
        let rlll := brushF br generate vbrush fuel bs.lll c
        let rllh := brushF br generate vbrush fuel bs.llh { c with z := c.z + 1 }
        let rlhl := brushF br generate vbrush fuel bs.lhl { c with y := c.y + 1 }
        let rlhh := brushF br generate vbrush fuel bs.lhh { c with y := c.y + 1, z := c.z + 1 }
        let rhll := brushF br generate vbrush fuel bs.hll { c with x := c.x + 1 }
        let rhlh := brushF br generate vbrush fuel bs.hlh { c with x := c.x + 1, z := c.z + 1 }
        let rhhl := brushF br generate vbrush fuel bs.hhl { c with x := c.x + 1, y := c.y + 1 }
        let rhhh := brushF br generate vbrush fuel bs.hhh
                      { c with x := c.x + 1, y := c.y + 1, z := c.z + 1 }
        (⟨p.1, rlll.1, rllh.1, rlhl.1, rlhh.1, rhll.1, rhlh.1, rhhl.1, rhhh.1⟩,
         p.2 ++ rlll.2 ++ rllh.2 ++ rlhl.2 ++ rlhh.2 ++ rhll.2 ++ rhlh.2 ++ rhhl.2 ++ rhhh.2)
      match n with
      | .branches d a b' c' d' e f g h =>
        let r := onB ⟨d, a, b', c', d', e, f, g, h⟩
        (r.1.toInner, r.2)
      | .empty =>
        let r := onB Branches.empty
        (r.1.toInner, r.2)

/-- Fuel that strictly exceeds the brush recursion depth from scale `L₀`:
recursion only continues while `min_lg_size ≤ lg_size`, which drops by one
per level. -/
def brushFuel (L0 : Int) (minLg : Int) : Nat :=
  (L0 - minLg + 1).toNat + 1

/-- T::brush: brush each of the eight top-level children with its quadrant
bounds at the tree's scale; the root's own payload slot is not touched and
`lg_size` is unchanged. -/
def T.brush (t : T V) (br : brush.T) (generate : bounds.T → Option V)
    (vbrush : V → bounds.T → V) : T V × List (V × bounds.T) :=
  let fuel := brushFuel (t.lg_size : Int) br.min_lg_size
  let L : Int := (t.lg_size : Int)
  let go := fun (n : Inner V) (x y z : Int) =>
    Inner.brushF br generate vbrush fuel n ⟨x, y, z, L⟩
  let rlll := go t.contents.lll (-1) (-1) (-1)
  let rllh := go t.contents.llh (-1) (-1) 0
  let rlhl := go t.contents.lhl (-1) 0 (-1)
  let rlhh := go t.contents.lhh (-1) 0 0
  let rhll := go t.contents.hll 0 (-1) (-1)
  let rhlh := go t.contents.hlh 0 (-1) 0
  let rhhl := go t.contents.hhl 0 0 (-1)
  let rhhh := go t.contents.hhh 0 0 0
  ({ lg_size := t.lg_size
     contents := ⟨t.contents.data, rlll.1, rllh.1, rlhl.1, rlhh.1,
                  rhll.1, rhlh.1, rhhl.1, rhhh.1⟩ },
   rlll.2 ++ rllh.2 ++ rlhl.2 ++ rlhh.2 ++ rhll.2 ++ rhlh.2 ++ rhhl.2 ++ rhhh.2)

end tree

namespace machine

/-- Wrap an unbounded integer to the value of its low 32 bits read as `i32`. -/
def wrap32 (n : Int) : Int :=
  (n + 2 ^ 31) % 2 ^ 32 - 2 ^ 31

/-- Rust (release) `i32` left shift: the shift amount is taken mod 32 and
the value wraps. -/
def shl32 (a : Int) (s : Nat) : Int :=
  wrap32 (wrap32 a * 2 ^ (s % 32))

/-- Rust `i32` arithmetic right shift: floor division of the 32-bit value. -/
def sar32 (a : Int) (s : Nat) : Int :=
  wrap32 a / 2 ^ (s % 32)

/-- Exact `i32` semantics of the `high` computation in `T::contains_bounds`
(`(1 << self.lg_size) >> voxel.lg_size` resp. `... << (-voxel.lg_size)`). -/
def high32 (S : Nat) (L : Int) : Int :=
  if 0 ≤ L then sar32 (shl32 1 S) L.toNat else shl32 (shl32 1 S) (-L).toNat

/-- Exact `i32` semantics of `T::contains_bounds` (the `low = -high`
negation also wraps). -/
def contains_bounds32 (S : Nat) (b : bounds.T) : Bool :=
  let high := high32 S b.lg_size
  let low := wrap32 (-high)
  decide (b.x < high) && decide (b.y < high) && decide (b.z < high) &&
    (decide (low ≤ b.x) && decide (low ≤ b.y) && decide (low ≤ b.z))

/-- Exact `i32` semantics of `to_voxel_mask` in `src/tree/traversal.rs`. -/
def to_voxel_mask32 (S : Nat) (b : bounds.T) : Int :=
  let m := sar32 (shl32 1 S) 1
  if 0 ≤ b.lg_size then sar32 m b.lg_size.toNat else shl32 m (-b.lg_size).toNat

end machine

namespace spec

/-- Right shift of an integer by `n` bits, the spec's rescaling operation. -/
def shiftr (a : Int) (n : Nat) : Int := a / 2 ^ n

/-- Left shift of an integer by `n` bits, the spec's rescaling operation. -/
def shiftl (a : Int) (n : Nat) : Int := a * 2 ^ n

/-- The containment half-width as the specification words it: the tree's
half-width `2^lg_size`, rescaled to the bounds' resolution by a right shift
when the bounds' `lg_size` is non-negative and by a left shift otherwise. -/
def rescaledHalfWidth (S : Nat) (L : Int) : Int :=
  if 0 ≤ L then shiftr (2 ^ S) L.toNat else shiftl (2 ^ S) (-L).toNat

end spec

namespace tree

open traversal

variable {V : Type}

lemma Inner.walk_nil (n : Inner V) : n.walk [] = some n := by
  cases n <;> rfl

lemma Inner.setPath_nil (n v : Inner V) : n.setPath [] v = v := by
  cases n <;> rfl

lemma Inner.forceWalk_nil (n : Inner V) : n.forceWalk [] = (n, n) := by
  cases n <;> rfl

lemma Inner.leaf_alloc (d : Option V) : (Inner.leaf d).isAllocated = true := rfl

lemma Inner.walk_cons_alloc {n : Inner V} (h : n.isAllocated = true) (o : Octant)
    (p : List Octant) : n.walk (o :: p) = (n.childO o).walk p := by
  cases n with
  | empty => simp [Inner.isAllocated] at h
  | branches d a b c d' e f g h' => rfl

lemma Inner.forceB_alloc (n : Inner V) : (n.forceB).isAllocated = true := by
  cases n <;> rfl

lemma Inner.setChildO_alloc {n : Inner V} (h : n.isAllocated = true) (o : Octant)
    (v : Inner V) : (n.setChildO o v).isAllocated = true := by
  cases n with
  | empty => simp [Inner.isAllocated] at h
  | branches d a b c d' e f g h' =>
    obtain ⟨x, y, z⟩ := o
    cases x <;> cases y <;> cases z <;> rfl

lemma Inner.childO_setChildO {n : Inner V} (h : n.isAllocated = true) (o : Octant)
    (v : Inner V) : (n.setChildO o v).childO o = v := by
  cases n with
  | empty => simp [Inner.isAllocated] at h
  | branches d a b c d' e f g h' =>
    obtain ⟨x, y, z⟩ := o
    cases x <;> cases y <;> cases z <;> rfl

lemma Inner.toB_toInner {n : Inner V} (h : n.isAllocated = true) : n.toB.toInner = n := by
  cases n with
  | empty => simp [Inner.isAllocated] at h
  | branches d a b c d' e f g h' => rfl

lemma Branches.toInner_alloc (br : Branches V) : (br.toInner).isAllocated = true := rfl

lemma Branches.childO_toInner (br : Branches V) (o : Octant) :
    (br.toInner).childO o = br.child o := by
  obtain ⟨x, y, z⟩ := o
  cases x <;> cases y <;> cases z <;> rfl

lemma Inner.walk_toInner_cons (br : Branches V) (o : Octant) (p : List Octant) :
    (br.toInner).walk (o :: p) = (br.child o).walk p := by
  rw [Inner.walk_cons_alloc (Branches.toInner_alloc br), Branches.childO_toInner]

lemma homed_alloc (n : Inner V) (o : Octant) : (homed n o).isAllocated = true :=
  Inner.setChildO_alloc (Inner.leaf_alloc none) o n

lemma homed_child_self (n : Inner V) (o : Octant) : (homed n o).childO o = n :=
  Inner.childO_setChildO (Inner.leaf_alloc none) o n

lemma homed_walk (n : Inner V) (o : Octant) (p : List Octant) :
    (homed n o).walk (o :: p) = n.walk p := by
  rw [Inner.walk_cons_alloc (homed_alloc n o), homed_child_self]

lemma grow_step_child (t : T V) (s : Octant) :
    (t.grow_step).contents.child s = homed (t.contents.child s) s.opp := by
  obtain ⟨x, y, z⟩ := s
  cases x <;> cases y <;> cases z <;> rfl

lemma grow_step_lg (t : T V) : (t.grow_step).lg_size = t.lg_size + 1 := rfl

lemma Inner.setPath_walk : ∀ (p : List Octant) (n v : Inner V),
    (n.setPath p v).walk p = some v := by
  intro p
  induction p with
  | nil => intro n v; rw [Inner.setPath_nil, Inner.walk_nil]
  | cons o p ih =>
    intro n v
    show ((n.forceB).setChildO o (((n.forceB).childO o).setPath p v)).walk (o :: p) = some v
    rw [Inner.walk_cons_alloc (Inner.setChildO_alloc (Inner.forceB_alloc n) _ _),
      Inner.childO_setChildO (Inner.forceB_alloc n)]
    exact ih _ _

lemma Inner.setPath_alloc (n v : Inner V) (o : Octant) (p : List Octant) :
    (n.setPath (o :: p) v).isAllocated = true :=
  Inner.setChildO_alloc (Inner.forceB_alloc n) _ _

lemma Inner.forceWalk_fst_alloc (n : Inner V) (o : Octant) (p : List Octant) :
    ((n.forceWalk (o :: p)).1).isAllocated = true :=
  Inner.setChildO_alloc (Inner.forceB_alloc n) _ _

lemma Inner.forceWalk_walk : ∀ (p : List Octant) (n : Inner V),
    ((n.forceWalk p).1).walk p = some ((n.forceWalk p).2) := by
  intro p
  induction p with
  | nil => intro n; rw [Inner.forceWalk_nil, Inner.walk_nil]
  | cons o p ih =>
    intro n
    show ((n.forceB).setChildO o _).walk (o :: p) = _
    rw [Inner.walk_cons_alloc (Inner.setChildO_alloc (Inner.forceB_alloc n) _ _),
      Inner.childO_setChildO (Inner.forceB_alloc n)]
    exact ih _

lemma Inner.forceWalk_prefix_alloc : ∀ (q r : List Octant) (n : Inner V), r ≠ [] →
    ∃ x, ((n.forceWalk (q ++ r)).1).walk q = some x ∧ x.isAllocated = true := by
  intro q
  induction q with
  | nil =>
    intro r n hr
    cases r with
    | nil => exact absurd rfl hr
    | cons o r =>
      exact ⟨(n.forceWalk (o :: r)).1, Inner.walk_nil _, Inner.forceWalk_fst_alloc n o r⟩
  | cons o q ih =>
    intro r n hr
    obtain ⟨x, hx, ha⟩ := ih r ((n.forceB).childO o) hr
    refine ⟨x, ?_, ha⟩
    show ((n.forceB).setChildO o _).walk (o :: q) = some x
    rw [Inner.walk_cons_alloc (Inner.setChildO_alloc (Inner.forceB_alloc n) _ _),
      Inner.childO_setChildO (Inner.forceB_alloc n)]
    exact hx

end tree

section BitLemmas

/-- Bitwise set difference is exclusive-or with the common bits. -/
lemma ldiff_eq_xor_land (m n : Nat) : Nat.ldiff m n = m ^^^ (m &&& n) := by
  apply Nat.eq_of_testBit_eq
  intro i
  rw [Nat.testBit_ldiff, Nat.testBit_xor, Nat.testBit_land]
  cases hm : m.testBit i <;> cases hn : n.testBit i <;> rfl

/-- The executable `landK` agrees with `Int.land`, so `bsel` is exactly the
source's `(x & mask) != 0`. -/
lemma landK_eq_land : ∀ a b : Int, landK a b = Int.land a b
  | .ofNat m, .ofNat n => rfl
  | .ofNat m, .negSucc n => by
    show Int.ofNat (m ^^^ (m &&& n)) = Int.ofNat (Nat.ldiff m n)
    rw [ldiff_eq_xor_land]
  | .negSucc m, .ofNat n => by
    show Int.ofNat (n ^^^ (n &&& m)) = Int.ofNat (Nat.ldiff n m)
    rw [ldiff_eq_xor_land]
  | .negSucc m, .negSucc n => rfl

/-- A natural below `2^k` shares no bits with `2^k`. -/
lemma land_two_pow_eq_zero {n k : Nat} (h : n < 2 ^ k) : n &&& 2 ^ k = 0 := by
  rw [Nat.and_two_pow, Nat.testBit_lt_two_pow h]
  simp

/-- Condition under which the source's `(x & mask) != 0` test with a
power-of-two mask is exactly the sign test: for `x` in `[-2^k, 2^k)`,
two's complement bit `k` is set iff `x` is negative. -/
lemma bsel_two_pow {x : Int} {k : Nat} (h1 : -(2 ^ k : Int) ≤ x) (h2 : x < 2 ^ k) :
    traversal.bsel x (2 ^ k) = decide (x < 0) := by
  unfold traversal.bsel
  cases x with
  | ofNat n =>
    have hn : n < 2 ^ k := by
      rw [Int.ofNat_eq_natCast] at h2
      exact_mod_cast h2
    have hland : landK (Int.ofNat n) (Int.ofNat (2 ^ k)) = Int.ofNat (n &&& 2 ^ k) := rfl
    rw [hland, land_two_pow_eq_zero hn]
    have hge : ¬ (Int.ofNat n < 0) := by
      rw [Int.ofNat_eq_natCast]
      exact not_lt.mpr (Int.natCast_nonneg n)
    simp [hge]
  | negSucc n =>
    have hn : n < 2 ^ k := by
      have h1' : -(2 ^ k : Int) ≤ -((n : Int) + 1) := by rwa [← Int.negSucc_eq]
      have h1'' : (n : Int) + 1 ≤ (2 ^ k : Int) := by linarith
      have h1n : (n : Nat) + 1 ≤ 2 ^ k := by exact_mod_cast h1''
      omega
    have hland : landK (Int.negSucc n) (Int.ofNat (2 ^ k))
        = Int.ofNat (2 ^ k ^^^ (2 ^ k &&& n)) := rfl
    have hz : 2 ^ k &&& n = 0 := by
      rw [Nat.land_comm]
      exact land_two_pow_eq_zero hn
    have hne : Int.ofNat (2 ^ k ^^^ (2 ^ k &&& n)) ≠ 0 := by
      rw [hz, Nat.xor_zero, Int.ofNat_eq_natCast, Ne, Int.ofNat_eq_zero]
      exact Nat.pos_iff_ne_zero.mp (Nat.two_pow_pos k)
    rw [hland, decide_eq_true hne, decide_eq_true (Int.negSucc_lt_zero n)]

end BitLemmas

namespace tree

open traversal

variable {V : Type}

lemma highAt_nonneg_eq {L : Int} {S : Nat} (hL : 0 ≤ L) (hl : L.toNat ≤ S) :
    highAt S L = 2 ^ (S - L.toNat) := by
  unfold highAt
  rw [if_pos hL]
  have h2 : (2 : Int) ^ S = 2 ^ (S - L.toNat) * 2 ^ L.toNat := by
    rw [← pow_add]
    congr 1
    omega
  rw [h2, Int.mul_ediv_cancel _ (pow_ne_zero _ two_ne_zero)]

lemma highAt_neg_eq {L : Int} {S : Nat} (hL : L < 0) :
    highAt S L = 2 ^ (S + (-L).toNat) := by
  unfold highAt
  rw [if_neg (not_le.mpr hL), ← pow_add]

lemma highAt_eq_zero {L : Int} {S : Nat} (hL : 0 ≤ L) (hl : S < L.toNat) :
    highAt S L = 0 := by
  unfold highAt
  rw [if_pos hL]
  apply Int.ediv_eq_zero_of_lt (by positivity)
  have h2 : (2 : Nat) ^ S < 2 ^ L.toNat := Nat.pow_lt_pow_right one_lt_two hl
  exact_mod_cast h2

lemma containsAt_iff {S : Nat} {b : bounds.T} :
    containsAt S b = true ↔
      (b.x < highAt S b.lg_size ∧ b.y < highAt S b.lg_size ∧ b.z < highAt S b.lg_size ∧
       -(highAt S b.lg_size) ≤ b.x ∧ -(highAt S b.lg_size) ≤ b.y ∧
       -(highAt S b.lg_size) ≤ b.z) := by
  unfold containsAt
  simp only [Bool.and_eq_true, decide_eq_true_eq]
  tauto

lemma highAt_pos_of_contains {S : Nat} {b : bounds.T} (h : containsAt S b = true) :
    0 < highAt S b.lg_size := by
  obtain ⟨h1, _, _, h4, _, _⟩ := containsAt_iff.mp h
  linarith

lemma toNat_le_of_contains {S : Nat} {b : bounds.T} (h : containsAt S b = true)
    (hL : 0 ≤ b.lg_size) : b.lg_size.toNat ≤ S := by
  by_contra hlt
  rw [not_le] at hlt
  have h0 := highAt_eq_zero hL hlt
  have h1 := highAt_pos_of_contains h
  omega

lemma exists_pow_highAt {S : Nat} {b : bounds.T} (h : containsAt S b = true) :
    ∃ k, highAt S b.lg_size = 2 ^ k := by
  rcases le_or_lt 0 b.lg_size with hL | hL
  · exact ⟨_, highAt_nonneg_eq hL (toNat_le_of_contains h hL)⟩
  · exact ⟨_, highAt_neg_eq hL⟩

lemma highAt_le_succ (S : Nat) (L : Int) : highAt S L ≤ highAt (S + 1) L := by
  unfold highAt
  have hpow : (2 : Int) ^ S ≤ 2 ^ (S + 1) :=
    pow_le_pow_right₀ one_le_two (Nat.le_succ S)
  rcases le_or_lt 0 L with hL | hL
  · rw [if_pos hL, if_pos hL]
    exact Int.ediv_le_ediv (by positivity) hpow
  · rw [if_neg (not_le.mpr hL), if_neg (not_le.mpr hL)]
    exact mul_le_mul_of_nonneg_right hpow (by positivity)

lemma containsAt_succ {S : Nat} {b : bounds.T} (h : containsAt S b = true) :
    containsAt (S + 1) b = true := by
  rw [containsAt_iff] at h ⊢
  have hm := highAt_le_succ S b.lg_size
  obtain ⟨h1, h2, h3, h4, h5, h6⟩ := h
  exact ⟨by linarith, by linarith, by linarith, by linarith, by linarith, by linarith⟩

lemma containsAt_mono {S S' : Nat} (hS : S ≤ S') {b : bounds.T}
    (h : containsAt S b = true) : containsAt S' b = true := by
  induction S', hS using Nat.le_induction with
  | base => exact h
  | succ n hn ih => exact containsAt_succ ih

lemma containsAt_of_growBound {S : Nat} {b : bounds.T} (h : growBound b ≤ S) :
    containsAt S b = true := by
  rw [containsAt_iff]
  unfold growBound at h
  have hx : b.x.natAbs ≤ max b.x.natAbs (max b.y.natAbs b.z.natAbs) := le_max_left _ _
  have hy : b.y.natAbs ≤ max b.x.natAbs (max b.y.natAbs b.z.natAbs) :=
    le_trans (le_max_left _ _) (le_max_right _ _)
  have hz : b.z.natAbs ≤ max b.x.natAbs (max b.y.natAbs b.z.natAbs) :=
    le_trans (le_max_right _ _) (le_max_right _ _)
  have hhigh : ((max b.x.natAbs (max b.y.natAbs b.z.natAbs) : Nat) : Int)
      < highAt S b.lg_size := by
    rcases le_or_lt 0 b.lg_size with hL | hL
    · rw [highAt_nonneg_eq hL (by omega)]
      have hA2 : max b.x.natAbs (max b.y.natAbs b.z.natAbs) ≤ S - b.lg_size.toNat := by omega
      have hlt : max b.x.natAbs (max b.y.natAbs b.z.natAbs) < 2 ^ (S - b.lg_size.toNat) :=
        lt_of_lt_of_le (Nat.lt_two_pow _) (Nat.pow_le_pow_right (by norm_num) hA2)
      exact_mod_cast hlt
    · rw [highAt_neg_eq hL]
      have hA2 : max b.x.natAbs (max b.y.natAbs b.z.natAbs) ≤ S + (-b.lg_size).toNat := by
        omega
      have hlt : max b.x.natAbs (max b.y.natAbs b.z.natAbs)
          < 2 ^ (S + (-b.lg_size).toNat) :=
        lt_of_lt_of_le (Nat.lt_two_pow _) (Nat.pow_le_pow_right (by norm_num) hA2)
      exact_mod_cast hlt
  omega

lemma growLoop_eq_succ (b : bounds.T) (fuel : Nat) (t : T V) :
    growLoop b (fuel + 1) t
      = if t.contains_bounds b then t else growLoop b fuel t.grow_step := rfl

lemma growLoop_contains {b : bounds.T} : ∀ (fuel : Nat) (t : T V),
    growBound b ≤ t.lg_size + fuel → (growLoop b fuel t).contains_bounds b = true := by
  intro fuel
  induction fuel with
  | zero =>
    intro t h
    show containsAt t.lg_size b = true
    exact containsAt_of_growBound (by omega)
  | succ fuel ih =>
    intro t h
    rw [growLoop_eq_succ]
    by_cases hc : t.contains_bounds b = true
    · rw [if_pos hc]; exact hc
    · rw [if_neg hc]
      exact ih t.grow_step (by rw [grow_step_lg]; omega)

lemma contains_grow_to_hold (t : T V) (b : bounds.T) :
    (t.grow_to_hold b).contains_bounds b = true :=
  growLoop_contains _ t (by omega)

lemma growLoop_lg_le (b : bounds.T) : ∀ (fuel : Nat) (t : T V),
    t.lg_size ≤ (growLoop b fuel t).lg_size := by
  intro fuel
  induction fuel with
  | zero => intro t; exact le_refl _
  | succ fuel ih =>
    intro t
    rw [growLoop_eq_succ]
    by_cases hc : t.contains_bounds b = true
    · rw [if_pos hc]
    · rw [if_neg hc]
      have := ih t.grow_step
      rw [grow_step_lg] at this
      omega

lemma grow_to_hold_lg_le (t : T V) (b : bounds.T) :
    t.lg_size ≤ (t.grow_to_hold b).lg_size :=
  growLoop_lg_le b _ t

lemma to_voxel_mask_succ (S : Nat) (b : bounds.T) :
    to_voxel_mask (S + 1) b = highAt S b.lg_size := by
  simp only [to_voxel_mask, highAt]
  have h2 : (2 : Int) ^ (S + 1) / 2 = 2 ^ S := by
    rw [pow_succ, Int.mul_ediv_cancel _ two_ne_zero]
  rw [h2]

lemma highAt_succ_div_two (S : Nat) (L : Int) : highAt (S + 1) L / 2 = highAt S L := by
  rcases le_or_lt 0 L with hL | hL
  · rcases le_or_lt L.toNat S with hl | hl
    · rw [highAt_nonneg_eq hL (le_trans hl (Nat.le_succ S)), highAt_nonneg_eq hL hl]
      have h1 : S + 1 - L.toNat = (S - L.toNat) + 1 := by omega
      rw [h1, pow_succ, Int.mul_ediv_cancel _ two_ne_zero]
    · rw [highAt_eq_zero hL hl]
      rcases Nat.lt_or_ge S (L.toNat - 1) with h2 | h2
      · rw [highAt_eq_zero hL (by omega)]
        norm_num
      · have h3 : L.toNat = S + 1 := by omega
        rw [highAt_nonneg_eq hL (by omega), h3]
        norm_num
  · rw [highAt_neg_eq hL, highAt_neg_eq hL]
    have h1 : S + 1 + (-L).toNat = (S + (-L).toNat) + 1 := by omega
    rw [h1, pow_succ, Int.mul_ediv_cancel _ two_ne_zero]

lemma to_voxel_mask_eq_highAt {S : Nat} (hS : 1 ≤ S) (b : bounds.T) :
    to_voxel_mask S b = highAt (S - 1) b.lg_size := by
  obtain ⟨S', rfl⟩ : ∃ S', S = S' + 1 := ⟨S - 1, by omega⟩
  rw [to_voxel_mask_succ]
  congr 1

lemma to_voxel_mask_zero (b : bounds.T) : to_voxel_mask 0 b = 0 := by
  simp only [to_voxel_mask]
  norm_num

lemma to_voxel_mask_succ_div_two {S : Nat} {b : bounds.T}
    (hcond : 1 ≤ S ∨ 0 ≤ b.lg_size) :
    to_voxel_mask (S + 1) b / 2 = to_voxel_mask S b := by
  rcases Nat.eq_zero_or_pos S with rfl | hS
  · have hL : 0 ≤ b.lg_size := by
      rcases hcond with h | h
      · omega
      · exact h
    rw [to_voxel_mask_succ, to_voxel_mask_zero]
    rcases Nat.eq_zero_or_pos b.lg_size.toNat with h0 | h0
    · rw [highAt_nonneg_eq hL (by omega), h0]
      norm_num
    · rw [highAt_eq_zero hL h0]
      norm_num
  · rw [to_voxel_mask_succ, to_voxel_mask_eq_highAt hS]
    have h1 : S = (S - 1) + 1 := by omega
    conv_lhs => rw [h1]
    exact highAt_succ_div_two (S - 1) b.lg_size

lemma toNat_two_pow (k : Nat) : ((2 : Int) ^ k).toNat = 2 ^ k := by
  have h1 : ((2 : Int) ^ k) = ((2 ^ k : Nat) : Int) := by push_cast; ring
  rw [h1, Int.toNat_natCast]

lemma toNat_two_pow_div_two (k : Nat) : (((2 : Int) ^ k) / 2).toNat = 2 ^ k / 2 := by
  cases k with
  | zero => decide
  | succ k =>
    rw [pow_succ, Int.mul_ediv_cancel _ two_ne_zero, toNat_two_pow, Nat.pow_succ,
      Nat.mul_div_cancel _ (by norm_num)]

lemma maskPathF_zero (b : bounds.T) (f : Nat) : maskPathF b f 0 = [] := by
  cases f <;> simp [maskPathF]

lemma maskPathF_congr (b : bounds.T) : ∀ (f1 f2 m : Nat), m ≤ f1 → m ≤ f2 →
    maskPathF b f1 m = maskPathF b f2 m := by
  intro f1
  induction f1 with
  | zero =>
    intro f2 m h1 h2
    have h0 : m = 0 := by omega
    subst h0
    rw [maskPathF_zero, maskPathF_zero]
  | succ f1 ih =>
    intro f2 m h1 h2
    rcases Nat.eq_zero_or_pos m with rfl | hm
    · rw [maskPathF_zero, maskPathF_zero]
    · obtain ⟨f2', rfl⟩ : ∃ f2', f2 = f2' + 1 := ⟨f2 - 1, by omega⟩
      simp only [maskPathF]
      rw [if_neg (by omega), if_neg (by omega)]
      congr 1
      exact ih f2' (m / 2) (by omega) (by omega)

lemma maskPath_unfold (m : Nat) (b : bounds.T) :
    maskPath m b = if m = 0 then [] else octAt m b :: maskPath (m / 2) b := by
  rcases Nat.eq_zero_or_pos m with rfl | hm
  · rw [if_pos rfl]
    exact maskPathF_zero b 0
  · rw [if_neg (by omega)]
    show maskPathF b m m = _
    obtain ⟨m', rfl⟩ : ∃ m', m = m' + 1 := ⟨m - 1, by omega⟩
    simp only [maskPathF]
    rw [if_neg (by omega)]
    congr 1
    exact maskPathF_congr b m' ((m' + 1) / 2) ((m' + 1) / 2) (by omega) (by omega)

lemma decide_neg_eq_not_decide (y : Int) : decide (y < 0) = !decide (0 ≤ y) := by
  by_cases h : 0 ≤ y
  · simp [h, not_lt.mpr h]
  · simp [h, lt_of_not_le h]

lemma octAt_pow_opp {k : Nat} {b : bounds.T}
    (hx1 : -(2 ^ k : Int) ≤ b.x) (hx2 : b.x < 2 ^ k)
    (hy1 : -(2 ^ k : Int) ≤ b.y) (hy2 : b.y < 2 ^ k)
    (hz1 : -(2 ^ k : Int) ≤ b.z) (hz2 : b.z < 2 ^ k) :
    octAt (2 ^ k) b = (signOct b).opp := by
  unfold octAt signOct Octant.opp
  simp only [Prod.mk.injEq]
  exact ⟨by rw [bsel_two_pow hx1 hx2, decide_neg_eq_not_decide],
    by rw [bsel_two_pow hy1 hy2, decide_neg_eq_not_decide],
    by rw [bsel_two_pow hz1 hz2, decide_neg_eq_not_decide]⟩

/-- One doubling step is transparent to `get` on a contained target, except
in the mask-underflow corner (`lg_size = 0` tree and negative-resolution
target), which the hypothesis excludes. -/
lemma get_grow_step {t : T V} {b : bounds.T} (hc : t.contains_bounds b = true)
    (hcond : 1 ≤ t.lg_size ∨ 0 ≤ b.lg_size) :
    t.grow_step.get b = t.get b := by
  have hcA : containsAt t.lg_size b = true := hc
  obtain ⟨k, hk⟩ := exists_pow_highAt hcA
  obtain ⟨h1, h2, h3, h4, h5, h6⟩ := containsAt_iff.mp hcA
  rw [hk] at h1 h2 h3 h4 h5 h6
  have hc' : containsAt (t.lg_size + 1) b = true := containsAt_succ hcA
  have hm1 : (to_voxel_mask (t.lg_size + 1) b).toNat = 2 ^ k := by
    rw [to_voxel_mask_succ, hk, toNat_two_pow]
  have hm2 : (2 : Nat) ^ k / 2 = (to_voxel_mask t.lg_size b).toNat := by
    have hdiv := to_voxel_mask_succ_div_two (b := b) hcond
    rw [to_voxel_mask_succ, hk] at hdiv
    rw [← hdiv, toNat_two_pow_div_two]
  have hoct : octAt (2 ^ k) b = (signOct b).opp := octAt_pow_opp h4 h1 h5 h2 h6 h3
  have hpath : pathOf (t.lg_size + 1) b
      = signOct b :: (signOct b).opp :: maskPath (to_voxel_mask t.lg_size b).toNat b := by
    show signOct b :: maskPath (to_voxel_mask (t.lg_size + 1) b).toNat b = _
    rw [hm1, maskPath_unfold, if_neg (pow_ne_zero k (two_ne_zero)), hoct, hm2]
  have e1 : t.grow_step.contains_bounds b = true := hc'
  unfold T.get
  rw [if_pos e1, if_pos hc]
  have hgs : t.grow_step.lg_size = t.lg_size + 1 := rfl
  rw [hgs, hpath, Inner.walk_toInner_cons, grow_step_child, homed_walk,
    show pathOf t.lg_size b
        = signOct b :: maskPath (to_voxel_mask t.lg_size b).toNat b from rfl,
    Inner.walk_toInner_cons]

lemma get_growLoop {b c : bounds.T} : ∀ (fuel : Nat) (t : T V),
    t.contains_bounds b = true → (1 ≤ t.lg_size ∨ 0 ≤ b.lg_size) →
    (growLoop c fuel t).get b = t.get b := by
  intro fuel
  induction fuel with
  | zero => intro t h hcond; rfl
  | succ fuel ih =>
    intro t h hcond
    rw [growLoop_eq_succ]
    by_cases hc : t.contains_bounds c = true
    · rw [if_pos hc]
    · rw [if_neg hc]
      have hstep : t.grow_step.contains_bounds b = true := containsAt_succ h
      rw [ih t.grow_step hstep (Or.inl (by rw [grow_step_lg]; omega)),
        get_grow_step h hcond]

lemma get_grow_to_hold {t : T V} {b c : bounds.T} (h : t.contains_bounds b = true)
    (hcond : 1 ≤ t.lg_size ∨ 0 ≤ b.lg_size) :
    (t.grow_to_hold c).get b = t.get b :=
  get_growLoop _ t h hcond

lemma contains_of_get_some {t : T V} {b : bounds.T} {v : V} (h : t.get b = some v) :
    t.contains_bounds b = true := by
  by_cases hc : t.contains_bounds b = true
  · exact hc
  · unfold T.get at h
    rw [if_neg hc] at h
    exact absurd h (by simp)

end tree

namespace tree

open traversal

variable {V : Type}

lemma Inner.leaf_childO (d : Option V) (o : Octant) : (Inner.leaf d).childO o = .empty := by
  obtain ⟨a, b, c⟩ := o
  cases a <;> cases b <;> cases c <;> rfl

lemma Inner.childO_setChildO_ne {o o' : Octant} (h : o' ≠ o) (m w : Inner V) :
    (m.setChildO o w).childO o' = m.childO o' := by
  cases m with
  | empty => rfl
  | branches d a b c d' e f g h' =>
    obtain ⟨a1, a2, a3⟩ := o
    obtain ⟨b1, b2, b3⟩ := o'
    cases a1 <;> cases a2 <;> cases a3 <;> cases b1 <;> cases b2 <;> cases b3 <;>
      first
        | rfl
        | exact absurd rfl h

lemma Inner.allNone_voxel {n : Inner V} (h : n.allNone = true) : n.voxel = none := by
  cases n with
  | empty => rfl
  | branches d a b c d' e f g h' =>
    simp only [Inner.allNone, Bool.and_eq_true] at h
    obtain ⟨⟨⟨⟨⟨⟨⟨⟨hd, ha⟩, hb⟩, hc⟩, hd'⟩, he⟩, hf⟩, hg⟩, hh⟩ := h
    show d = none
    rwa [Option.isNone_iff_eq_none] at hd

lemma Inner.allNone_childO {n : Inner V} (h : n.allNone = true) (o : Octant) :
    (n.childO o).allNone = true := by
  cases n with
  | empty => rfl
  | branches d a b c d' e f g h' =>
    simp only [Inner.allNone, Bool.and_eq_true] at h
    obtain ⟨⟨⟨⟨⟨⟨⟨⟨hd, ha⟩, hb⟩, hc⟩, hd'⟩, he⟩, hf⟩, hg⟩, hh⟩ := h
    obtain ⟨x, y, z⟩ := o
    cases x <;> cases y <;> cases z <;> assumption

lemma Inner.allNone_forceB {n : Inner V} (h : n.allNone = true) :
    (n.forceB).allNone = true := by
  cases n with
  | empty => rfl
  | branches d a b c d' e f g h' => exact h

lemma Inner.voxel_setChildO (m : Inner V) (o : Octant) (w : Inner V) :
    (m.setChildO o w).voxel = m.voxel := by
  cases m with
  | empty => rfl
  | branches d a b c d' e f g h' =>
    obtain ⟨x, y, z⟩ := o
    cases x <;> cases y <;> cases z <;> rfl

lemma Inner.empty_walk_voxel (q : List Octant) :
    (((Inner.empty : Inner V).walk q).bind Inner.voxel) = none := by
  cases q with
  | nil => rfl
  | cons o q => rfl

/-- Walking a payload-free subtree yields no payload, wherever the walk
ends. -/
lemma Inner.allNone_walk (p : List Octant) : ∀ (n : Inner V), n.allNone = true →
    ((n.walk p).bind Inner.voxel) = none := by
  induction p with
  | nil =>
    intro n h
    rw [Inner.walk_nil]
    exact Inner.allNone_voxel h
  | cons o q ih =>
    intro n h
    cases n with
    | empty => rfl
    | branches d a b c d' e f g h' =>
      rw [Inner.walk_cons_alloc
        (show (Inner.branches d a b c d' e f g h').isAllocated = true from rfl)]
      exact ih _ (Inner.allNone_childO h o)

/-- Writing one leaf into a payload-free tree leaves every other traversal
path payload-free: walking any path different from the written one yields
no payload. -/
lemma Inner.setPath_walk_ne (v : V) : ∀ (p p' : List Octant) (n : Inner V),
    n.allNone = true → p ≠ p' →
    (((n.setPath p (Inner.leaf (some v))).walk p').bind Inner.voxel) = none := by
  intro p
  induction p with
  | nil =>
    intro p' n hA hne
    rw [Inner.setPath_nil]
    cases p' with
    | nil => exact absurd rfl hne
    | cons o q =>
      rw [Inner.walk_cons_alloc (Inner.leaf_alloc _), Inner.leaf_childO]
      exact Inner.empty_walk_voxel q
  | cons o q ih =>
    intro p' n hA hne
    show ((((n.forceB).setChildO o
      (((n.forceB).childO o).setPath q (Inner.leaf (some v)))).walk p').bind Inner.voxel) = none
    cases p' with
    | nil =>
      rw [Inner.walk_nil]
      show ((n.forceB).setChildO o _).voxel = none
      rw [Inner.voxel_setChildO]
      exact Inner.allNone_voxel (Inner.allNone_forceB hA)
    | cons o' q' =>
      rw [Inner.walk_cons_alloc (Inner.setChildO_alloc (Inner.forceB_alloc n) _ _)]
      by_cases ho : o' = o
      · subst ho
        rw [Inner.childO_setChildO (Inner.forceB_alloc n)]
        refine ih q' ((n.forceB).childO o')
          (Inner.allNone_childO (Inner.allNone_forceB hA) o') ?_
        intro heq
        exact hne (by rw [heq])
      · rw [Inner.childO_setChildO_ne ho]
        exact Inner.allNone_walk q' _ (Inner.allNone_childO (Inner.allNone_forceB hA) o')

lemma allNone_homed {c : Inner V} (h : c.allNone = true) (s : Octant) :
    (homed c s).allNone = true := by
  obtain ⟨x, y, z⟩ := s
  cases x <;> cases y <;> cases z <;>
    simp [homed, Inner.leaf, Inner.setChildO, Inner.allNone, h]

lemma allNone_grow_step {t : T V} (h : (t.contents.toInner).allNone = true) :
    ((t.grow_step).contents.toInner).allNone = true := by
  simp only [Branches.toInner, Inner.allNone, Bool.and_eq_true] at h
  obtain ⟨⟨⟨⟨⟨⟨⟨⟨hd, ha⟩, hb⟩, hc⟩, hd'⟩, he⟩, hf⟩, hg⟩, hh⟩ := h
  simp [T.grow_step, Branches.toInner, Inner.allNone, homed, Inner.setChildO, Inner.leaf,
    ha, hb, hc, hd', he, hf, hg, hh]

lemma allNone_growLoop (b : bounds.T) : ∀ (fuel : Nat) (t : T V),
    (t.contents.toInner).allNone = true →
    ((growLoop b fuel t).contents.toInner).allNone = true := by
  intro fuel
  induction fuel with
  | zero => intro t h; exact h
  | succ fuel ih =>
    intro t h
    rw [growLoop_eq_succ]
    by_cases hc : t.contains_bounds b = true
    · rw [if_pos hc]; exact h
    · rw [if_neg hc]; exact ih _ (allNone_grow_step h)

lemma allNone_grow_to_hold (t : T V) (b : bounds.T)
    (h : (t.contents.toInner).allNone = true) :
    (((t.grow_to_hold b).contents.toInner).allNone) = true :=
  allNone_growLoop b _ t h

lemma allNone_new : (((new : T V).contents.toInner).allNone) = true := rfl

lemma maskPath_zero (b : bounds.T) : maskPath 0 b = [] := rfl

lemma maskPath_two_pow_length (b : bounds.T) : ∀ k : Nat,
    (maskPath (2 ^ k) b).length = k + 1 := by
  intro k
  induction k with
  | zero =>
    rw [pow_zero, maskPath_unfold, if_neg one_ne_zero,
      show (1 : Nat) / 2 = 0 from rfl, maskPath_zero]
    rfl
  | succ k ih =>
    rw [maskPath_unfold, if_neg (pow_ne_zero _ two_ne_zero)]
    have h2 : 2 ^ (k + 1) / 2 = 2 ^ k := by
      rw [Nat.pow_succ, Nat.mul_div_cancel _ (by norm_num)]
    rw [h2, List.length_cons, ih]

/-- At tree scale at least 1, the traversal path to a contained Bounds has
exactly `S - lg_size + 1` steps: the path length determines the resolution. -/
lemma pathOf_length {S : Nat} {b : bounds.T} (h : containsAt S b = true) (hS : 1 ≤ S) :
    ((pathOf S b).length : Int) = (S : Int) - b.lg_size + 1 := by
  have hm : to_voxel_mask S b = highAt (S - 1) b.lg_size := to_voxel_mask_eq_highAt hS b
  have hp : pathOf S b = signOct b :: maskPath (to_voxel_mask S b).toNat b := rfl
  rcases le_or_lt 0 b.lg_size with hL | hL
  · have hls : b.lg_size.toNat ≤ S := toNat_le_of_contains h hL
    have hLt : (b.lg_size.toNat : Int) = b.lg_size := Int.toNat_of_nonneg hL
    rcases Nat.lt_or_ge b.lg_size.toNat S with hlt | hge
    · have he : highAt (S - 1) b.lg_size = 2 ^ (S - 1 - b.lg_size.toNat) :=
        highAt_nonneg_eq hL (by omega)
      rw [hp, hm, he, toNat_two_pow, List.length_cons, maskPath_two_pow_length]
      omega
    · have he : highAt (S - 1) b.lg_size = 0 := highAt_eq_zero hL (by omega)
      rw [hp, hm, he, show ((0 : Int)).toNat = 0 from rfl, maskPath_zero]
      simp only [List.length_cons, List.length_nil]
      omega
  · have he : highAt (S - 1) b.lg_size = 2 ^ (S - 1 + (-b.lg_size).toNat) :=
      highAt_neg_eq hL
    have hLt : ((-b.lg_size).toNat : Int) = -b.lg_size := Int.toNat_of_nonneg (by omega)
    rw [hp, hm, he, toNat_two_pow, List.length_cons, maskPath_two_pow_length]
    omega

/-- A scale-0 tree only ever contains resolution-0 Bounds among the
non-negative resolutions. -/
lemma lg_eq_zero_of_contains_zero {b : bounds.T} (h : containsAt 0 b = true)
    (hL : 0 ≤ b.lg_size) : b.lg_size = 0 := by
  have h1 := toNat_le_of_contains h hL
  omega

/-- Pruning guard of the brush recursion: a non-overlapping node or one
finer than `min_lg_size` is returned untouched with no events. -/
lemma brushF_pruned {br : brush.T} {generate : bounds.T → Option V}
    {vbrush : V → bounds.T → V} : ∀ (fuel : Nat) (n : Inner V) (b : bounds.T),
    (brush_overlaps b br.bounds = false ∨ b.lg_size < br.min_lg_size) →
    Inner.brushF br generate vbrush fuel n b = (n, []) := by
  intro fuel n b h
  cases fuel with
  | zero => cases n <;> rfl
  | succ fuel =>
    rcases h with h | h
    · simp [Inner.brushF, h]
    · cases hov : brush_overlaps b br.bounds with
      | false => simp [Inner.brushF, hov]
      | true => simp [Inner.brushF, hov, h]

/-- Unfolding of the brush recursion at a qualifying node: pre-order data
update followed by the eight child recursions at the halved bounds. -/
lemma brushF_succ_eq {br : brush.T} {generate : bounds.T → Option V}
    {vbrush : V → bounds.T → V} (fuel : Nat) (n : Inner V) (b : bounds.T)
    (hov : brush_overlaps b br.bounds = true) (hmin : ¬ b.lg_size < br.min_lg_size) :
    Inner.brushF br generate vbrush (fuel + 1) n b
      = (Inner.branches (brushData (n.toB).data b generate vbrush).1
          (Inner.brushF br generate vbrush fuel (n.toB).lll
            ⟨b.x * 2, b.y * 2, b.z * 2, b.lg_size - 1⟩).1
          (Inner.brushF br generate vbrush fuel (n.toB).llh
            ⟨b.x * 2, b.y * 2, b.z * 2 + 1, b.lg_size - 1⟩).1
          (Inner.brushF br generate vbrush fuel (n.toB).lhl
            ⟨b.x * 2, b.y * 2 + 1, b.z * 2, b.lg_size - 1⟩).1
          (Inner.brushF br generate vbrush fuel (n.toB).lhh
            ⟨b.x * 2, b.y * 2 + 1, b.z * 2 + 1, b.lg_size - 1⟩).1
          (Inner.brushF br generate vbrush fuel (n.toB).hll
            ⟨b.x * 2 + 1, b.y * 2, b.z * 2, b.lg_size - 1⟩).1
          (Inner.brushF br generate vbrush fuel (n.toB).hlh
            ⟨b.x * 2 + 1, b.y * 2, b.z * 2 + 1, b.lg_size - 1⟩).1
          (Inner.brushF br generate vbrush fuel (n.toB).hhl
            ⟨b.x * 2 + 1, b.y * 2 + 1, b.z * 2, b.lg_size - 1⟩).1
          (Inner.brushF br generate vbrush fuel (n.toB).hhh
            ⟨b.x * 2 + 1, b.y * 2 + 1, b.z * 2 + 1, b.lg_size - 1⟩).1,
         (brushData (n.toB).data b generate vbrush).2
          ++ (Inner.brushF br generate vbrush fuel (n.toB).lll
              ⟨b.x * 2, b.y * 2, b.z * 2, b.lg_size - 1⟩).2
          ++ (Inner.brushF br generate vbrush fuel (n.toB).llh
              ⟨b.x * 2, b.y * 2, b.z * 2 + 1, b.lg_size - 1⟩).2
          ++ (Inner.brushF br generate vbrush fuel (n.toB).lhl
              ⟨b.x * 2, b.y * 2 + 1, b.z * 2, b.lg_size - 1⟩).2
          ++ (Inner.brushF br generate vbrush fuel (n.toB).lhh
              ⟨b.x * 2, b.y * 2 + 1, b.z * 2 + 1, b.lg_size - 1⟩).2
          ++ (Inner.brushF br generate vbrush fuel (n.toB).hll
              ⟨b.x * 2 + 1, b.y * 2, b.z * 2, b.lg_size - 1⟩).2
          ++ (Inner.brushF br generate vbrush fuel (n.toB).hlh
              ⟨b.x * 2 + 1, b.y * 2, b.z * 2 + 1, b.lg_size - 1⟩).2
          ++ (Inner.brushF br generate vbrush fuel (n.toB).hhl
              ⟨b.x * 2 + 1, b.y * 2 + 1, b.z * 2, b.lg_size - 1⟩).2
          ++ (Inner.brushF br generate vbrush fuel (n.toB).hhh
              ⟨b.x * 2 + 1, b.y * 2 + 1, b.z * 2 + 1, b.lg_size - 1⟩).2) := by
  cases n with
  | empty =>
    simp [Inner.brushF, hov, hmin, Inner.toB, Branches.empty, Branches.toInner]
  | branches d a b' c' d' e f g h =>
    simp [Inner.brushF, hov, hmin, Inner.toB, Branches.toInner]

/-- The events one data update emits all carry the node's own bounds. -/
lemma brushData_mem {d : Option V} {b b' : bounds.T} {v : V}
    {generate : bounds.T → Option V} {vbrush : V → bounds.T → V}
    (h : (v, b') ∈ (brushData d b generate vbrush).2) : b' = b := by
  unfold brushData at h
  cases d with
  | some w =>
    simp only [List.mem_singleton, Prod.mk.injEq] at h
    exact h.2
  | none =>
    cases hg : generate b with
    | none => rw [hg] at h; simp at h
    | some w =>
      rw [hg] at h
      simp only [List.mem_singleton, Prod.mk.injEq] at h
      exact h.2

/-- Every `on_voxel_update` event of a brush recursion concerns a node
whose bounds overlaps the brush box at a resolution not finer than
`min_lg_size`: pruned regions get no callbacks. -/
lemma brushF_mem {br : brush.T} {generate : bounds.T → Option V}
    {vbrush : V → bounds.T → V} : ∀ (fuel : Nat) (n : Inner V) (b : bounds.T)
    (v : V) (b' : bounds.T),
    (v, b') ∈ (Inner.brushF br generate vbrush fuel n b).2 →
    brush_overlaps b' br.bounds = true ∧ ¬ b'.lg_size < br.min_lg_size := by
  intro fuel
  induction fuel with
  | zero =>
    intro n b v b' h
    cases n <;> simp [Inner.brushF] at h
  | succ fuel ih =>
    intro n b v b' h
    by_cases hov : brush_overlaps b br.bounds = true
    · by_cases hmin : b.lg_size < br.min_lg_size
      · rw [brushF_pruned (fuel + 1) n b (Or.inr hmin)] at h
        simp at h
      · rw [brushF_succ_eq fuel n b hov hmin] at h
        simp only [List.mem_append] at h
        rcases h with ((((((((h | h) | h) | h) | h) | h) | h) | h) | h)
        · obtain rfl := brushData_mem h
          exact ⟨hov, hmin⟩
        · exact ih _ _ v b' h
        · exact ih _ _ v b' h
        · exact ih _ _ v b' h
        · exact ih _ _ v b' h
        · exact ih _ _ v b' h
        · exact ih _ _ v b' h
        · exact ih _ _ v b' h
        · exact ih _ _ v b' h
    · have hov' : brush_overlaps b br.bounds = false := by
        cases hx : brush_overlaps b br.bounds with
        | true => exact absurd hx hov
        | false => rfl
      rw [brushF_pruned (fuel + 1) n b (Or.inl hov')] at h
      simp at h

/-- Lifting of `brushF_mem` to a whole `T::brush` call. -/
lemma T_brush_mem {br : brush.T} {generate : bounds.T → Option V}
    {vbrush : V → bounds.T → V} (t : T V) (v : V) (b : bounds.T)
    (h : (v, b) ∈ (t.brush br generate vbrush).2) :
    brush_overlaps b br.bounds = true ∧ ¬ b.lg_size < br.min_lg_size := by
  simp only [T.brush, List.mem_append] at h
  rcases h with (((((((h | h) | h) | h) | h) | h) | h) | h) <;>
    exact brushF_mem _ _ _ v b h

end tree

/-- Claim C1: for every Bounds `B` and payload `v`, after writing `v` at `B`
through `get_mut_or_create` (assigning a leaf holding `v` to the returned
node), an immediately following `get B` on the same tree returns `v`. -/
theorem claim_C1 (V : Type) (t : tree.T V) (b : bounds.T) (v : V) :
    (t.write b (tree.Inner.leaf (some v))).get b = some v := by
  have hc : (t.grow_to_hold b).contains_bounds b = true := tree.contains_grow_to_hold t b
  have hc2 : (t.write b (tree.Inner.leaf (some v))).contains_bounds b = true := hc
  unfold tree.T.get
  rw [if_pos hc2]
  have hlg : (t.write b (tree.Inner.leaf (some v))).lg_size = (t.grow_to_hold b).lg_size := rfl
  have hp : traversal.pathOf (t.grow_to_hold b).lg_size b
      = traversal.signOct b ::
        traversal.maskPath (traversal.to_voxel_mask (t.grow_to_hold b).lg_size b).toNat b := rfl
  have hcont : (t.write b (tree.Inner.leaf (some v))).contents
      = ((((t.grow_to_hold b).contents.toInner).setPath
          (traversal.pathOf (t.grow_to_hold b).lg_size b)
          (tree.Inner.leaf (some v))).toB) := rfl
  rw [hlg, hcont, hp, tree.Inner.toB_toInner (tree.Inner.setPath_alloc _ _ _ _),
    tree.Inner.setPath_walk]
  rfl

/-- Claim C2 counterexample: the claim fails as stated.  In a fresh tree
(scale 0) the payload `7` written at `Bounds (0,0,0,-1)` resolves via `get`
at that very Bounds, but one `grow_to_hold` call makes the same `get` return
absent: the traversal mask `(1 << 0) >> 1` underflows to zero before being
rescaled by the negative `lg_size`, so in a scale-0 tree all negative
resolutions alias the depth-1 octant, and growth re-homes that octant. -/
theorem claim_C2_counterexample :
    ((tree.new (V := Nat)).write ⟨0, 0, 0, -1⟩ (tree.Inner.leaf (some 7))).get ⟨0, 0, 0, -1⟩
        = some 7
      ∧ (((tree.new (V := Nat)).write ⟨0, 0, 0, -1⟩
            (tree.Inner.leaf (some 7))).grow_to_hold ⟨0, 0, 0, 1⟩).get ⟨0, 0, 0, -1⟩
        = none := by
  exact ⟨by decide, by decide⟩

/-- Claim C2 (amended): for any sequence of `grow_to_hold` calls, every
Bounds that currently resolves to a payload via `get` keeps resolving to it,
provided the tree's `lg_size` is at least 1 or the Bounds' `lg_size` is
non-negative (the excluded corner is the scale-0/negative-resolution mask
underflow exhibited by the counterexample). -/
theorem claim_C2 (V : Type) (targets : List bounds.T) :
    ∀ (t : tree.T V) (b : bounds.T) (v : V),
    (1 ≤ t.lg_size ∨ 0 ≤ b.lg_size) → t.get b = some v →
    (targets.foldl tree.T.grow_to_hold t).get b = some v := by
  induction targets with
  | nil => intro t b v hcond h; exact h
  | cons c rest ih =>
    intro t b v hcond h
    show (rest.foldl tree.T.grow_to_hold (t.grow_to_hold c)).get b = some v
    refine ih _ b v ?_ ?_
    · rcases hcond with h1 | h1
      · exact Or.inl (le_trans h1 (tree.grow_to_hold_lg_le t c))
      · exact Or.inr h1
    · rw [tree.get_grow_to_hold (tree.contains_of_get_some h) hcond]
      exact h

/-- Claim C2 witness: the transparency theorem applied to the repository's
own `grow_is_transparent` scenario. -/
theorem claim_C2_witness :
    (([⟨0, 0, 0, 2⟩, ⟨-32, 32, -128, 3⟩] : List bounds.T).foldl tree.T.grow_to_hold
        ((tree.new (V := Nat)).write ⟨1, 1, 1, 0⟩ (tree.Inner.leaf (some 1)))).get ⟨1, 1, 1, 0⟩
      = some 1 :=
  claim_C2 Nat [⟨0, 0, 0, 2⟩, ⟨-32, 32, -128, 3⟩]
    ((tree.new (V := Nat)).write ⟨1, 1, 1, 0⟩ (tree.Inner.leaf (some 1)))
    ⟨1, 1, 1, 0⟩ 1 (Or.inr (by decide)) (by decide)

/-- Claim C3: `contains_bounds` returns true exactly when every coordinate
of the queried Bounds lies in `[-H, H)`, where `H` is the tree half-width
`2^lg_size` rescaled to the Bounds' resolution by a right or left shift
according to the sign of its `lg_size`. -/
theorem claim_C3 (V : Type) (t : tree.T V) (b : bounds.T) :
    t.contains_bounds b = true ↔
      (-(spec.rescaledHalfWidth t.lg_size b.lg_size) ≤ b.x
        ∧ b.x < spec.rescaledHalfWidth t.lg_size b.lg_size
        ∧ -(spec.rescaledHalfWidth t.lg_size b.lg_size) ≤ b.y
        ∧ b.y < spec.rescaledHalfWidth t.lg_size b.lg_size
        ∧ -(spec.rescaledHalfWidth t.lg_size b.lg_size) ≤ b.z
        ∧ b.z < spec.rescaledHalfWidth t.lg_size b.lg_size) := by
  have hr : spec.rescaledHalfWidth t.lg_size b.lg_size = tree.highAt t.lg_size b.lg_size := rfl
  rw [hr]
  show tree.containsAt t.lg_size b = true ↔ _
  rw [tree.containsAt_iff]
  tauto

/-- Claim C4 counterexample: the claim fails as stated.  On a fresh tree,
`get_mut_or_create (0,0,0,0)` returns the end-of-path slot without
materializing it: the returned node is still `Empty`, not Allocated (only
nodes strictly before the end of the traversal path are forced). -/
theorem claim_C4_counterexample :
    (tree.T.gmocNode (V := Nat) tree.new ⟨0, 0, 0, 0⟩).isAllocated = false := by
  decide

/-- Claim C4 (amended): `get_mut_or_create b` grows the tree first and
materializes every node strictly along the traversal path into the
Allocated state (walking any proper prefix of the path in the resulting
tree reaches an Allocated node), and the node it returns is the one at the
end of the path, at `b`'s exact resolution — but that final node is not
itself materialized and may still be Empty. -/
theorem claim_C4 (V : Type) (t : tree.T V) (b : bounds.T) (q r : List Octant)
    (hqr : traversal.pathOf (t.grow_to_hold b).lg_size b = q ++ r) (hr : r ≠ []) :
    (∃ x, ((t.gmoc b).contents.toInner).walk q = some x ∧ x.isAllocated = true)
      ∧ ((t.gmoc b).contents.toInner).walk (traversal.pathOf (t.grow_to_hold b).lg_size b)
          = some (t.gmocNode b) := by
  have hp : traversal.pathOf (t.grow_to_hold b).lg_size b
      = traversal.signOct b ::
        traversal.maskPath (traversal.to_voxel_mask (t.grow_to_hold b).lg_size b).toNat b := rfl
  have hcont : (t.gmoc b).contents.toInner
      = (((t.grow_to_hold b).contents.toInner).forceWalk
          (traversal.pathOf (t.grow_to_hold b).lg_size b)).1 := by
    show ((((t.grow_to_hold b).contents.toInner).forceWalk _).1.toB).toInner = _
    apply tree.Inner.toB_toInner
    rw [hp]
    exact tree.Inner.forceWalk_fst_alloc _ _ _
  constructor
  · rw [hcont, hqr]
    exact tree.Inner.forceWalk_prefix_alloc q r _ hr
  · rw [hcont]
    exact tree.Inner.forceWalk_walk _ _

/-- Claim C4 witness: the amended theorem applied at a concrete write that
grows a fresh tree to scale 1. -/
theorem claim_C4_witness :
    (∃ x, ((tree.T.gmoc (V := Nat) tree.new ⟨0, 0, 0, 1⟩).contents.toInner.walk [] = some x
        ∧ x.isAllocated = true))
      ∧ (tree.T.gmoc (V := Nat) tree.new ⟨0, 0, 0, 1⟩).contents.toInner.walk
          (traversal.pathOf ((tree.new (V := Nat)).grow_to_hold ⟨0, 0, 0, 1⟩).lg_size
            ⟨0, 0, 0, 1⟩)
        = some (tree.T.gmocNode (V := Nat) tree.new ⟨0, 0, 0, 1⟩) :=
  claim_C4 Nat tree.new ⟨0, 0, 0, 1⟩ [] [(true, true, true)] (by decide) (by decide)

/-- Claim C5 counterexample: resolution exactness fails as stated.  After
writing only at `Bounds (0,0,0,0)` in a fresh tree, reading the same
coordinates at the finer resolution `lg_size = -1` (not a coarser Bounds,
so the claim's stated exception does not apply) returns the payload instead
of absent, because the traversal mask underflows to zero in a scale-0 tree
and every negative resolution aliases the depth-1 octant. -/
theorem claim_C5_counterexample :
    ((tree.new (V := Nat)).write ⟨0, 0, 0, 0⟩ (tree.Inner.leaf (some 1))).get ⟨0, 0, 0, -1⟩
      = some 1 := by
  decide

/-- Claim C5 (amended): resolution exactness on single-write trees, where
the coarser-read exception cannot fire because nothing else was ever
written.  Writing a payload into a fresh tree at `(x,y,z,L)` and reading
the same `(x,y,z)` at any `L' ≠ L` returns absent — excluding exactly the
mask-underflow corner, scale 0 with a negative resolution on either side,
which the counterexample exhibits. -/
theorem claim_C5 (V : Type) (v : V) (x y z L L' : Int) (hne : L ≠ L')
    (hS1 : 1 ≤ ((tree.new (V := V)).grow_to_hold ⟨x, y, z, L⟩).lg_size
      ∨ (0 ≤ L ∧ 0 ≤ L')) :
    ((tree.new (V := V)).write ⟨x, y, z, L⟩ (tree.Inner.leaf (some v))).get ⟨x, y, z, L'⟩
      = none := by
  have hcb : tree.containsAt ((tree.new (V := V)).grow_to_hold ⟨x, y, z, L⟩).lg_size
      ⟨x, y, z, L⟩ = true := tree.contains_grow_to_hold _ _
  by_cases hcb' : tree.containsAt ((tree.new (V := V)).grow_to_hold ⟨x, y, z, L⟩).lg_size
      ⟨x, y, z, L'⟩ = true
  · have hS : 1 ≤ ((tree.new (V := V)).grow_to_hold ⟨x, y, z, L⟩).lg_size := by
      rcases hS1 with h | ⟨hL, hL'⟩
      · exact h
      · by_contra h0
        have h00 : ((tree.new (V := V)).grow_to_hold ⟨x, y, z, L⟩).lg_size = 0 := by omega
        rw [h00] at hcb hcb'
        have e1 : L = 0 := tree.lg_eq_zero_of_contains_zero hcb hL
        have e2 : L' = 0 := tree.lg_eq_zero_of_contains_zero hcb' hL'
        exact hne (e1.trans e2.symm)
    have hl1 := tree.pathOf_length hcb hS
    have hl2 := tree.pathOf_length hcb' hS
    have hpne : traversal.pathOf ((tree.new (V := V)).grow_to_hold ⟨x, y, z, L⟩).lg_size
        ⟨x, y, z, L⟩
        ≠ traversal.pathOf ((tree.new (V := V)).grow_to_hold ⟨x, y, z, L⟩).lg_size
          ⟨x, y, z, L'⟩ := by
      intro he
      rw [he] at hl1
      rw [show (⟨x, y, z, L⟩ : bounds.T).lg_size = L from rfl] at hl1
      rw [show (⟨x, y, z, L'⟩ : bounds.T).lg_size = L' from rfl] at hl2
      omega
    have hAll : ((((tree.new (V := V)).grow_to_hold ⟨x, y, z, L⟩).contents.toInner).allNone)
        = true := tree.allNone_grow_to_hold _ _ tree.allNone_new
    have hc2 : ((tree.new (V := V)).write ⟨x, y, z, L⟩
        (tree.Inner.leaf (some v))).contains_bounds ⟨x, y, z, L'⟩ = true := hcb'
    have hcont : ((tree.new (V := V)).write ⟨x, y, z, L⟩ (tree.Inner.leaf (some v))).contents
        = (((((tree.new (V := V)).grow_to_hold ⟨x, y, z, L⟩).contents.toInner).setPath
            (traversal.pathOf ((tree.new (V := V)).grow_to_hold ⟨x, y, z, L⟩).lg_size
              ⟨x, y, z, L⟩) (tree.Inner.leaf (some v))).toB) := rfl
    have hp : traversal.pathOf ((tree.new (V := V)).grow_to_hold ⟨x, y, z, L⟩).lg_size
        ⟨x, y, z, L⟩
        = traversal.signOct ⟨x, y, z, L⟩ ::
          traversal.maskPath (traversal.to_voxel_mask
            ((tree.new (V := V)).grow_to_hold ⟨x, y, z, L⟩).lg_size ⟨x, y, z, L⟩).toNat
            ⟨x, y, z, L⟩ := rfl
    unfold tree.T.get
    rw [if_pos hc2, hcont, hp, tree.Inner.toB_toInner (tree.Inner.setPath_alloc _ _ _ _),
      ← hp]
    exact tree.Inner.setPath_walk_ne v _ _ _ hAll hpne
  · have hc2 : ¬ ((tree.new (V := V)).write ⟨x, y, z, L⟩
        (tree.Inner.leaf (some v))).contains_bounds ⟨x, y, z, L'⟩ = true := hcb'
    unfold tree.T.get
    rw [if_neg hc2]

/-- Claim C5 witness: the amended theorem applied to the claim's own
scenario, write at `(4,4,-4,1)` and read at resolutions 0 and 2. -/
theorem claim_C5_witness :
    ((tree.new (V := Nat)).write ⟨4, 4, -4, 1⟩ (tree.Inner.leaf (some 1))).get ⟨4, 4, -4, 0⟩
        = none
      ∧ ((tree.new (V := Nat)).write ⟨4, 4, -4, 1⟩ (tree.Inner.leaf (some 1))).get
          ⟨4, 4, -4, 2⟩ = none :=
  ⟨claim_C5 Nat 1 4 4 (-4) 1 0 (by decide) (Or.inl (by decide)),
   claim_C5 Nat 1 4 4 (-4) 1 2 (by decide) (Or.inl (by decide))⟩

/-- Claim C6: during any brush call, a node whose Bounds does not overlap
the brush box, or whose resolution is finer than `min_lg_size`, is left
unchanged with no `on_voxel_update` event for it or its subtree (first
conjunct, at every recursion depth); globally, every event a whole
`T::brush` call emits concerns a Bounds that overlaps the brush box at a
resolution not finer than `min_lg_size`, so pruned regions never observe a
callback (second conjunct). -/
theorem claim_C6 (V : Type) (br : brush.T) (generate : bounds.T → Option V)
    (vbrush : V → bounds.T → V) :
    (∀ (fuel : Nat) (n : tree.Inner V) (b : bounds.T),
        (tree.brush_overlaps b br.bounds = false ∨ b.lg_size < br.min_lg_size) →
        tree.Inner.brushF br generate vbrush fuel n b = (n, []))
      ∧ (∀ (t : tree.T V) (v : V) (b : bounds.T),
          (v, b) ∈ (t.brush br generate vbrush).2 →
          tree.brush_overlaps b br.bounds = true ∧ ¬ b.lg_size < br.min_lg_size) :=
  ⟨fun fuel n b h => tree.brushF_pruned fuel n b h,
   fun t v b h => tree.T_brush_mem t v b h⟩

/-- Claim C6 witness: a brush whose box lies beside a leaf leaves it
untouched with no events, and the single event of a covering brush on a
fresh tree passes both guards. -/
theorem claim_C6_witness :
    tree.Inner.brushF ⟨⟨0, 0, 0, 1, 1, 1⟩, 0⟩ (fun _ => (some 0 : Option Nat)) (fun _ _ => 7) 3
        (tree.Inner.leaf (some 2)) ⟨5, 0, 0, 0⟩
      = (tree.Inner.leaf (some 2), [])
    ∧ (tree.brush_overlaps ⟨0, 0, 0, 0⟩ (⟨⟨0, 0, 0, 1, 1, 1⟩, 0⟩ : brush.T).bounds = true
        ∧ ¬ (⟨0, 0, 0, 0⟩ : bounds.T).lg_size < (⟨⟨0, 0, 0, 1, 1, 1⟩, 0⟩ : brush.T).min_lg_size) :=
  ⟨(claim_C6 Nat ⟨⟨0, 0, 0, 1, 1, 1⟩, 0⟩ (fun _ => some 0) (fun _ _ => 7)).1 3
      (tree.Inner.leaf (some 2)) ⟨5, 0, 0, 0⟩ (Or.inl (by decide)),
   (claim_C6 Nat ⟨⟨0, 0, 0, 1, 1, 1⟩, 0⟩ (fun _ => some 0) (fun _ _ => 7)).2 tree.new 7
      ⟨0, 0, 0, 0⟩ (by decide)⟩

/-- Claim C7: at a qualifying node (overlapping, not finer than
`min_lg_size`) brush application is pre-order — the node's own payload is
updated first (generated if absent, brushed in place if present, with the
update event emitted before any child event) — and it then recurses into
all eight children unconditionally, even when `generate` declined, each
child Bounds doubling the coordinates (plus 0 or 1 per axis) and lowering
the exponent by one. -/
theorem claim_C7 (V : Type) (fuel : Nat) (n : tree.Inner V) (b : bounds.T) (br : brush.T)
    (generate : bounds.T → Option V) (vbrush : V → bounds.T → V)
    (hov : tree.brush_overlaps b br.bounds = true) (hmin : ¬ b.lg_size < br.min_lg_size) :
    tree.Inner.brushF br generate vbrush (fuel + 1) n b
      = (tree.Inner.branches (tree.brushData (n.toB).data b generate vbrush).1
          (tree.Inner.brushF br generate vbrush fuel (n.toB).lll
            ⟨b.x * 2, b.y * 2, b.z * 2, b.lg_size - 1⟩).1
          (tree.Inner.brushF br generate vbrush fuel (n.toB).llh
            ⟨b.x * 2, b.y * 2, b.z * 2 + 1, b.lg_size - 1⟩).1
          (tree.Inner.brushF br generate vbrush fuel (n.toB).lhl
            ⟨b.x * 2, b.y * 2 + 1, b.z * 2, b.lg_size - 1⟩).1
          (tree.Inner.brushF br generate vbrush fuel (n.toB).lhh
            ⟨b.x * 2, b.y * 2 + 1, b.z * 2 + 1, b.lg_size - 1⟩).1
          (tree.Inner.brushF br generate vbrush fuel (n.toB).hll
            ⟨b.x * 2 + 1, b.y * 2, b.z * 2, b.lg_size - 1⟩).1
          (tree.Inner.brushF br generate vbrush fuel (n.toB).hlh
            ⟨b.x * 2 + 1, b.y * 2, b.z * 2 + 1, b.lg_size - 1⟩).1
          (tree.Inner.brushF br generate vbrush fuel (n.toB).hhl
            ⟨b.x * 2 + 1, b.y * 2 + 1, b.z * 2, b.lg_size - 1⟩).1
          (tree.Inner.brushF br generate vbrush fuel (n.toB).hhh
            ⟨b.x * 2 + 1, b.y * 2 + 1, b.z * 2 + 1, b.lg_size - 1⟩).1,
         (tree.brushData (n.toB).data b generate vbrush).2
          ++ (tree.Inner.brushF br generate vbrush fuel (n.toB).lll
              ⟨b.x * 2, b.y * 2, b.z * 2, b.lg_size - 1⟩).2
          ++ (tree.Inner.brushF br generate vbrush fuel (n.toB).llh
              ⟨b.x * 2, b.y * 2, b.z * 2 + 1, b.lg_size - 1⟩).2
          ++ (tree.Inner.brushF br generate vbrush fuel (n.toB).lhl
              ⟨b.x * 2, b.y * 2 + 1, b.z * 2, b.lg_size - 1⟩).2
          ++ (tree.Inner.brushF br generate vbrush fuel (n.toB).lhh
              ⟨b.x * 2, b.y * 2 + 1, b.z * 2 + 1, b.lg_size - 1⟩).2
          ++ (tree.Inner.brushF br generate vbrush fuel (n.toB).hll
              ⟨b.x * 2 + 1, b.y * 2, b.z * 2, b.lg_size - 1⟩).2
          ++ (tree.Inner.brushF br generate vbrush fuel (n.toB).hlh
              ⟨b.x * 2 + 1, b.y * 2, b.z * 2 + 1, b.lg_size - 1⟩).2
          ++ (tree.Inner.brushF br generate vbrush fuel (n.toB).hhl
              ⟨b.x * 2 + 1, b.y * 2 + 1, b.z * 2, b.lg_size - 1⟩).2
          ++ (tree.Inner.brushF br generate vbrush fuel (n.toB).hhh
              ⟨b.x * 2 + 1, b.y * 2 + 1, b.z * 2 + 1, b.lg_size - 1⟩).2) :=
  tree.brushF_succ_eq fuel n b hov hmin

/-- Claim C7 witness: the pre-order decomposition applied at an empty node
with a declining generate callback; the node is still allocated and all
eight children are (vacuously) recursed into. -/
theorem claim_C7_witness :
    tree.Inner.brushF ⟨⟨0, 0, 0, 1, 1, 1⟩, 0⟩ (fun _ => (none : Option Nat)) (fun v _ => v) 1
        tree.Inner.empty ⟨0, 0, 0, 0⟩
      = (tree.Inner.leaf none, []) := by
  rw [claim_C7 Nat 0 tree.Inner.empty ⟨0, 0, 0, 0⟩ ⟨⟨0, 0, 0, 1, 1, 1⟩, 0⟩
    (fun _ => none) (fun v _ => v) (by decide) (by decide)]
  rfl

/-- Claim C9: the overflow is neither detected nor documented — the shift
arithmetic silently wraps.  At tree scale 0 and `lg_size = -31`, the exact
`i32` semantics of `contains_bounds` computes `high = 1 << 31 = -2^31` and
answers `false`, while the overflow-free value of the same expression shows
the Bounds is inside `[-2^31, 2^31)`; likewise `to_voxel_mask` silently
produces a negative mask where the overflow-free value is `2^31`.  The
`TODO: Check for overflow` comment in `to_voxel_mask` confirms the check is
missing, so the code violates the requirement rather than satisfying either
permitted alternative. -/
theorem claim_C9 :
    (machine.contains_bounds32 0 ⟨0, 0, 0, -31⟩ = false
      ∧ tree.containsAt 0 ⟨0, 0, 0, -31⟩ = true)
      ∧ (machine.to_voxel_mask32 1 ⟨0, 0, 0, -31⟩ = -(2 ^ 31)
        ∧ traversal.to_voxel_mask 1 ⟨0, 0, 0, -31⟩ = 2 ^ 31) := by
  exact ⟨⟨by decide, by decide⟩, ⟨by decide, by decide⟩⟩

/-- Claim C10: `T::brush` never changes the tree's `lg_size` (it never
grows), and any Bounds outside the tree's current extent reads the same
(absent) after the brush as before. -/
theorem claim_C10 (V : Type) (t : tree.T V) (br : brush.T)
    (generate : bounds.T → Option V) (vbrush : V → bounds.T → V) (b : bounds.T)
    (h : t.contains_bounds b = false) :
    (t.brush br generate vbrush).1.lg_size = t.lg_size
      ∧ (t.brush br generate vbrush).1.get b = t.get b := by
  constructor
  · rfl
  · have h2 : (t.brush br generate vbrush).1.contains_bounds b = false := h
    unfold tree.T.get
    rw [if_neg (by rw [h2]; simp), if_neg (by rw [h]; simp)]

/-- Claim C10 witness: a brush on a fresh tree read at an out-of-extent
Bounds. -/
theorem claim_C10_witness :
    ((tree.new (V := Nat)).brush ⟨⟨0, 0, 0, 1, 1, 1⟩, 0⟩ (fun _ => none)
          (fun v _ => v)).1.lg_size
        = (tree.new (V := Nat)).lg_size
      ∧ ((tree.new (V := Nat)).brush ⟨⟨0, 0, 0, 1, 1, 1⟩, 0⟩ (fun _ => none)
          (fun v _ => v)).1.get ⟨2, 0, 0, 0⟩
        = (tree.new (V := Nat)).get ⟨2, 0, 0, 0⟩ :=
  claim_C10 Nat tree.new ⟨⟨0, 0, 0, 1, 1, 1⟩, 0⟩ (fun _ => none) (fun v _ => v)
    ⟨2, 0, 0, 0⟩ (by decide)
